import Mathlib

/-!
# The C wrapper around the poker hand indexer (`rust.h`, `rust_interface.c`)

The wrapper marshals calls into the hand-indexing engine (`hand_index.h`).
The engine's functions are not part of the wrapper's translation unit, so the
wrapper is embedded over an arbitrary `Engine`: a record holding one Lean
function per engine entry point the wrapper calls.  Out-parameters become
returned values, a `NULL` pointer becomes `none`, the card buffer is a list and
a pointer into it is an offset.  Unsigned 32-bit arithmetic is written with an
explicit `% 2 ^ 32`.
-/

namespace HandIndexer

/-! ## Data model -/

/-- The indexer record `hand_indexer_t`.  The wrapper reads the two fields
`rounds` and `cards_per_round`; everything else the engine keeps in the record
(its lookup tables) is the component `tables`.  The array access
`cards_per_round[round]` is `cards_per_round.getD round 0`. -/
structure hand_indexer_t (T : Type) where
  rounds : Nat
  cards_per_round : List Nat
  tables : T
deriving DecidableEq, Repr

/-- One call from the wrapper into the engine, as it is logged by the traced
versions of the wrapper functions.  `offset` is the distance of the card
pointer handed to the engine from the start of the caller's buffer, `state` the
contents of the state record at the time of the call. -/
inductive Call (St : Type) where
  | hand_indexer_size (round : Nat)
  | hand_indexer_state_init
  | hand_index_next_round (offset : Nat) (state : St)
deriving DecidableEq, Repr

/-- The engine entry points used by the wrapper, taken as parameters.

* `hand_indexer_init rounds cards_per_round` gives the success flag and the
  contents written to the indexer record;
* `hand_indexer_size indexer round` gives the size;
* `hand_index_all indexer cards indices` gives the returned value and the new
  contents of `indices`;
* `hand_unindex indexer round index cards` gives the success flag and the new
  contents of `cards`;
* `hand_indexer_state_init indexer` gives the contents written to the state;
* `hand_index_next_round indexer cards state` gives the returned index and the
  new contents of the state; `cards` is the buffer from the pointer onwards. -/
structure Engine (T St : Type) where
  hand_indexer_init : Nat → List Nat → Bool × hand_indexer_t T
  hand_indexer_size : hand_indexer_t T → Nat → Nat
  hand_index_all : hand_indexer_t T → List Nat → List Nat → Nat × List Nat
  hand_unindex : hand_indexer_t T → Nat → Nat → List Nat → Bool × List Nat
  hand_indexer_state_init : hand_indexer_t T → St
  hand_index_next_round : hand_indexer_t T → List Nat → St → Nat × St

variable {T St : Type}

/-! ## The wrapper functions -/

/-- `rust_init_indexer`: `malloc_ok` tells whether the allocation succeeded.
The result is the returned pointer (`none` for `NULL`) and the value stored in
`*success`. -/
def rust_init_indexer (E : Engine T St) (malloc_ok : Bool) (rounds : Nat)
    (cards_per_round : List Nat) : Option (hand_indexer_t T) × Bool :=
  if !malloc_ok then
    (none, false)
  else
    let r := E.hand_indexer_init rounds cards_per_round
    if !r.1 then
      (none, false)
    else
      (some r.2, true)

/-- `rust_indexer_size` together with the log of its engine calls. -/
def rust_indexer_size_run (E : Engine T St) (indexer : hand_indexer_t T) (round : Nat) :
    Nat × List (Call St) :=
  if round ≥ indexer.rounds then
    (0, [])
  else
    (E.hand_indexer_size indexer round, [Call.hand_indexer_size round])

/-- `rust_indexer_size`. -/
def rust_indexer_size (E : Engine T St) (indexer : hand_indexer_t T) (round : Nat) : Nat :=
  (rust_indexer_size_run E indexer round).1

/-- `rust_index_all`: the returned value and the new contents of `indices`. -/
def rust_index_all (E : Engine T St) (indexer : hand_indexer_t T) (cards : List Nat)
    (indices : List Nat) : Nat × List Nat :=
  E.hand_index_all indexer cards indices

/-- `rust_unindex`: the returned flag and the new contents of `cards`. -/
def rust_unindex (E : Engine T St) (indexer : hand_indexer_t T) (round : Nat) (index : Nat)
    (cards : List Nat) : Bool × List Nat :=
  E.hand_unindex indexer round index cards

/-- The `for` loop of `rust_index_round`.  The first argument counts the
iterations that remain before `round < indexer->rounds` fails; then come the
loop variables `round`, `cards_used`, the offset of the pointer `cards`,
`index` and `state`.  The result is the final `index` and the engine calls made
from here on. -/
def rust_index_round_loop (E : Engine T St) (indexer : hand_indexer_t T) (buf : List Nat)
    (ncards : Nat) : Nat → Nat → Nat → Nat → Nat → St → Nat × List (Call St)
  | 0, _, _, _, index, _ => (index, [])
  | n + 1, round, cards_used, cards, index, state =>
    let cards_used := (cards_used + indexer.cards_per_round.getD round 0) % 2 ^ 32
    if cards_used > ncards then
      (index, [])
    else
      let r := E.hand_index_next_round indexer (buf.drop cards) state
      let rest := rust_index_round_loop E indexer buf ncards n (round + 1) cards_used
        (cards + indexer.cards_per_round.getD round 0) r.1 r.2
      (rest.1, Call.hand_index_next_round cards state :: rest.2)

/-- `rust_index_round` together with the log of its engine calls. -/
def rust_index_round_run (E : Engine T St) (indexer : hand_indexer_t T) (cards : List Nat)
    (ncards : Nat) : Nat × List (Call St) :=
  let state := E.hand_indexer_state_init indexer
  let r := rust_index_round_loop E indexer cards ncards indexer.rounds 0 0 0 0 state
  (r.1, Call.hand_indexer_state_init :: r.2)

/-- `rust_index_round`. -/
def rust_index_round (E : Engine T St) (indexer : hand_indexer_t T) (cards : List Nat)
    (ncards : Nat) : Nat :=
  (rust_index_round_run E indexer cards ncards).1

/-! ## Vocabulary of the statements -/

/-- Number of cards of the rounds before round `i`:
`cards_per_round[0] + ... + cards_per_round[i-1]`. -/
def cards_before (indexer : hand_indexer_t T) (i : Nat) : Nat :=
  (indexer.cards_per_round.take i).sum

/-- The index and state after `i` successive calls of `hand_index_next_round`
on one state initialised once, the `j`-th call reading the buffer from offset
`cards_before indexer j`; before any call the index is `0`. -/
def chain (E : Engine T St) (indexer : hand_indexer_t T) (buf : List Nat) : Nat → Nat × St
  | 0 => (0, E.hand_indexer_state_init indexer)
  | i + 1 =>
    E.hand_index_next_round indexer (buf.drop (cards_before indexer i)) (chain E indexer buf i).2

/-- The largest `k ≤ rounds` with `cards_before indexer k ≤ ncards`: the number
of complete rounds that fit into `ncards` cards. -/
def rounds_fit (indexer : hand_indexer_t T) (ncards : Nat) : Nat :=
  Nat.findGreatest (fun k => cards_before indexer k ≤ ncards) indexer.rounds

/-- The sum held in the 32-bit counter `cards_used` never wraps: the card
counts of the configured rounds add up to less than `2 ^ 32`.  (The record
stores the counts as bytes in a short fixed array.) -/
def counts_fit_u32 (indexer : hand_indexer_t T) : Prop :=
  cards_before indexer indexer.rounds < 2 ^ 32

instance (indexer : hand_indexer_t T) : Decidable (counts_fit_u32 indexer) := by
  unfold counts_fit_u32; infer_instance

/-! ## The wrapper acting on memory

The wrapper hands the indexer to the engine through a pointer that is not
`const`, and the local `state` of `rust_index_round` is not initialised at
entry.  To speak about what a call leaves behind, the per-call wrapper
functions are embedded a second time as functions on the memory they can
reach, over an engine that may write to the indexer record. -/

/-- The engine entry points as they act on the indexer record: each gives, next
to its result, the contents of the record after the call.
`hand_indexer_state_init` also receives what the state record held before the
call. -/
structure MemEngine (T St : Type) where
  hand_indexer_size : hand_indexer_t T → Nat → Nat × hand_indexer_t T
  hand_index_all :
    hand_indexer_t T → List Nat → List Nat → (Nat × List Nat) × hand_indexer_t T
  hand_unindex :
    hand_indexer_t T → Nat → Nat → List Nat → (Bool × List Nat) × hand_indexer_t T
  hand_indexer_state_init : hand_indexer_t T → St → St × hand_indexer_t T
  hand_index_next_round : hand_indexer_t T → List Nat → St → (Nat × St) × hand_indexer_t T

/-- The memory that outlives a wrapper call: the indexer record, and the
storage of the local `state` of `rust_index_round`, which at entry holds
whatever an earlier call left there. -/
structure Mem (T St : Type) where
  indexer : hand_indexer_t T
  state : St
deriving DecidableEq, Repr

/-- `rust_indexer_size` on memory: the returned value and the memory after the
call. -/
def rust_indexer_size_mem (M : MemEngine T St) (mem : Mem T St) (round : Nat) :
    Nat × Mem T St :=
  if round ≥ mem.indexer.rounds then
    (0, mem)
  else
    let r := M.hand_indexer_size mem.indexer round
    (r.1, { mem with indexer := r.2 })

/-- `rust_index_all` on memory: the returned value, the new contents of
`indices` and the memory after the call. -/
def rust_index_all_mem (M : MemEngine T St) (mem : Mem T St) (cards : List Nat)
    (indices : List Nat) : (Nat × List Nat) × Mem T St :=
  let r := M.hand_index_all mem.indexer cards indices
  (r.1, { mem with indexer := r.2 })

/-- `rust_unindex` on memory: the returned flag, the new contents of `cards`
and the memory after the call. -/
def rust_unindex_mem (M : MemEngine T St) (mem : Mem T St) (round : Nat) (index : Nat)
    (cards : List Nat) : (Bool × List Nat) × Mem T St :=
  let r := M.hand_unindex mem.indexer round index cards
  (r.1, { mem with indexer := r.2 })

/-- The `for` loop of `rust_index_round` on memory.  The loop test
`round < indexer->rounds` and both reads of `cards_per_round[round]` use the
record as it is at that point, so the number of iterations is not known in
advance: the first argument is fuel, and `none` means it ran out.  The result
is the final `index`, the final contents of `state` and the record. -/
def rust_index_round_loop_mem (M : MemEngine T St) (buf : List Nat) (ncards : Nat) :
    Nat → hand_indexer_t T → Nat → Nat → Nat → Nat → St →
      Option (Nat × St × hand_indexer_t T)
  | 0, _, _, _, _, _, _ => none
  | fuel + 1, indexer, round, cards_used, cards, index, state =>
    if round < indexer.rounds then
      let cards_used := (cards_used + indexer.cards_per_round.getD round 0) % 2 ^ 32
      if cards_used > ncards then
        some (index, state, indexer)
      else
        let r := M.hand_index_next_round indexer (buf.drop cards) state
        rust_index_round_loop_mem M buf ncards fuel r.2 (round + 1) cards_used
          (cards + r.2.cards_per_round.getD round 0) r.1.1 r.1.2
    else
      some (index, state, indexer)

/-- `rust_index_round` on memory: the returned value and the memory after the
call, or `none` when the fuel does not suffice. -/
def rust_index_round_mem (M : MemEngine T St) (fuel : Nat) (mem : Mem T St)
    (cards : List Nat) (ncards : Nat) : Option (Nat × Mem T St) :=
  let i := M.hand_indexer_state_init mem.indexer mem.state
  (rust_index_round_loop_mem M cards ncards fuel i.2 0 0 0 0 i.1).map
    (fun r => (r.1, { indexer := r.2.2, state := r.2.1 }))

/-- A call of one of the four per-call wrapper functions, with its arguments. -/
inductive Op where
  | indexer_size (round : Nat)
  | index_all (cards indices : List Nat)
  | unindex (round index : Nat) (cards : List Nat)
  | index_round (cards : List Nat) (ncards : Nat)
deriving DecidableEq, Repr

/-- The memory after one wrapper call. -/
def Op.exec (M : MemEngine T St) (fuel : Nat) (mem : Mem T St) : Op → Option (Mem T St)
  | Op.indexer_size round => some (rust_indexer_size_mem M mem round).2
  | Op.index_all cards indices => some (rust_index_all_mem M mem cards indices).2
  | Op.unindex round index cards => some (rust_unindex_mem M mem round index cards).2
  | Op.index_round cards ncards =>
    (rust_index_round_mem M fuel mem cards ncards).map (fun r => r.2)

/-- The memory after a sequence of wrapper calls. -/
def run_ops (M : MemEngine T St) (fuel : Nat) : Mem T St → List Op → Option (Mem T St)
  | mem, [] => some mem
  | mem, op :: ops => (op.exec M fuel mem).bind (fun mem1 => run_ops M fuel mem1 ops)

/-- Modelled from the spec: the engine (`hand_index.c`) does not write to the
indexer; "the built Indexer is immutable after construction", "the Indexer
itself is read-only and shareable [...] because it holds no mutable per-hand
data".  Every per-call entry point leaves the record as it received it. -/
def reads_only (M : MemEngine T St) : Prop :=
  (∀ indexer round, (M.hand_indexer_size indexer round).2 = indexer)
  ∧ (∀ indexer cards indices, (M.hand_index_all indexer cards indices).2 = indexer)
  ∧ (∀ indexer round index cards, (M.hand_unindex indexer round index cards).2 = indexer)
  ∧ (∀ indexer state, (M.hand_indexer_state_init indexer state).2 = indexer)
  ∧ (∀ indexer cards state, (M.hand_index_next_round indexer cards state).2 = indexer)

/-- Modelled from the spec: `hand_indexer_state_init` (in `hand_index.c`);
"`init_state() -> State`: zero/identity configuration, no rounds consumed yet".
The state it writes does not depend on what the state record held before. -/
def fresh_state_init (M : MemEngine T St) : Prop :=
  ∀ indexer state state',
    (M.hand_indexer_state_init indexer state).1 = (M.hand_indexer_state_init indexer state').1

/-- An engine that takes the indexer as read-only, seen as an engine acting on
memory. -/
def Engine.toMem (E : Engine T St) : MemEngine T St where
  hand_indexer_size := fun indexer round => (E.hand_indexer_size indexer round, indexer)
  hand_index_all := fun indexer cards indices => (E.hand_index_all indexer cards indices, indexer)
  hand_unindex := fun indexer round index cards =>
    (E.hand_unindex indexer round index cards, indexer)
  hand_indexer_state_init := fun indexer _ => (E.hand_indexer_state_init indexer, indexer)
  hand_index_next_round := fun indexer cards state =>
    (E.hand_index_next_round indexer cards state, indexer)

/-- An engine that writes to the indexer: its size query counts the queries in
the field `rounds`.  It shows what the embedding on memory does when the engine
is not read-only. -/
def counting_engine : MemEngine Unit Unit where
  hand_indexer_size := fun indexer _ => (0, { indexer with rounds := indexer.rounds + 1 })
  hand_index_all := fun indexer _ indices => ((0, indices), indexer)
  hand_unindex := fun indexer _ _ cards => ((false, cards), indexer)
  hand_indexer_state_init := fun indexer _ => ((), indexer)
  hand_index_next_round := fun indexer _ _ =>
    ((0, ()), { indexer with rounds := indexer.rounds + 1 })

/-! ## The engine as the specification describes it -/

/-- Modelled from the spec: the incremental state `hand_indexer_state_t`
(declared in `hand_index.h`).  It holds the current round pointer and the
running suit-group configuration and combinatorial offset, kept here as
`data`. -/
structure hand_indexer_state_t (S : Type) where
  round : Nat
  data : S
deriving DecidableEq, Repr

/-- Modelled from the spec: the parts of the engine (`hand_index.c`) that the
specification leaves to the table builder and the combinatorial ranking, kept
as parameters: table construction, round sizes, the initial running state, the
ranking step of one round (indexer, round, the new cards of that round, running
state) and the inverse mapping. -/
structure EngineCore (T S : Type) where
  init : Nat → List Nat → Bool × hand_indexer_t T
  size : hand_indexer_t T → Nat → Nat
  state0 : S
  rank_round : hand_indexer_t T → Nat → List Nat → S → Nat × S
  unrank : hand_indexer_t T → Nat → Nat → List Nat

variable {S : Type}

/-- Modelled from the spec: `hand_indexer_state_init` (in `hand_index.c`);
"zero/identity configuration, no rounds consumed yet". -/
def hand_indexer_state_init (core : EngineCore T S) (_indexer : hand_indexer_t T) :
    hand_indexer_state_t S :=
  { round := 0, data := core.state0 }

/-- Modelled from the spec: `hand_index_next_round` (in `hand_index.c`);
"consumes exactly `cards_per_round[current_round]` new cards, updates `state`
in place [...], returns the canonical index for the cumulative hand through
this round", the current round being the round pointer held in `state`. -/
def hand_index_next_round (core : EngineCore T S) (indexer : hand_indexer_t T)
    (cards : List Nat) (state : hand_indexer_state_t S) : Nat × hand_indexer_state_t S :=
  let round := state.round
  let r := core.rank_round indexer round (cards.take (indexer.cards_per_round.getD round 0))
    state.data
  (r.1, { round := round + 1, data := r.2 })

/-- Modelled from the spec: the loop of `hand_index_all` (in `hand_index.c`);
one index per round, each obtained by applying `hand_index_next_round` to the
cards of that round.  The arguments are the number of rounds left, the round
`i`, the offset `j` of its first card and the state. -/
def hand_index_all_loop (core : EngineCore T S) (indexer : hand_indexer_t T)
    (cards : List Nat) : Nat → Nat → Nat → hand_indexer_state_t S → List Nat
  | 0, _, _, _ => []
  | n + 1, i, j, state =>
    let r := hand_index_next_round core indexer (cards.drop j) state
    r.1 :: hand_index_all_loop core indexer cards n (i + 1)
      (j + indexer.cards_per_round.getD i 0) r.2

/-- Modelled from the spec: `hand_index_all` (in `hand_index.c`); "computes,
for every prefix boundary defined by the round schedule, the canonical index
using the cumulative card set seen through that round", "consistent with those
obtainable by repeated application" of the per-round operation.  The first
`rounds` entries of `indices` are overwritten; the value returned is the index
of the final round (`0` when there is no round). -/
def hand_index_all (core : EngineCore T S) (indexer : hand_indexer_t T) (cards : List Nat)
    (indices : List Nat) : Nat × List Nat :=
  let written := hand_index_all_loop core indexer cards indexer.rounds 0 0
    (hand_indexer_state_init core indexer)
  (written.getLastD 0, written ++ indices.drop indexer.rounds)

/-- Modelled from the spec: `hand_unindex` (in `hand_index.c`); "for an
out-of-range `(round, index)` pair, fails with `OutOfRange` rather than
returning undefined card data", otherwise writes a representative card
assignment.  The wrapper's comment: "hand_unindex checks bounds for once". -/
def hand_unindex (core : EngineCore T S) (indexer : hand_indexer_t T) (round : Nat)
    (index : Nat) (cards : List Nat) : Bool × List Nat :=
  if round ≥ indexer.rounds ∨ index ≥ core.size indexer round then
    (false, cards)
  else
    let written := core.unrank indexer round index
    (true, written ++ cards.drop written.length)

/-- Modelled from the spec: the engine of `hand_index.c`, assembled from the
modelled entry points. -/
def specEngine (core : EngineCore T S) : Engine T (hand_indexer_state_t S) where
  hand_indexer_init := core.init
  hand_indexer_size := core.size
  hand_index_all := hand_index_all core
  hand_unindex := hand_unindex core
  hand_indexer_state_init := hand_indexer_state_init core
  hand_index_next_round := hand_index_next_round core

/-- Modelled from the spec: the invariant of a round schedule; at least one
round, every round reveals at least one card, and the rounds together ask for
no more cards than the deck holds. -/
def valid_schedule (deck : Nat) (c : List Nat) : Prop :=
  c ≠ [] ∧ (∀ x ∈ c, 1 ≤ x) ∧ c.sum ≤ deck

instance (deck : Nat) (c : List Nat) : Decidable (valid_schedule deck c) := by
  unfold valid_schedule; infer_instance

/-- The indexer record holds the schedule `c`: `rounds` is its length and the
first `rounds` entries of `cards_per_round` are its entries. -/
def holds_schedule (indexer : hand_indexer_t T) (c : List Nat) : Prop :=
  indexer.rounds = c.length ∧ indexer.cards_per_round.take indexer.rounds = c

instance (indexer : hand_indexer_t T) (c : List Nat) : Decidable (holds_schedule indexer c) := by
  unfold holds_schedule; infer_instance

/-! ## A concrete engine for instantiating the statements -/

/-- Cards for `n` further positions, from position `j` on, whose ranks
(`card / 4`) add up to `s` as far as `12` per card allows; the suit is the
position modulo `4`. -/
def spread_ranks : Nat → Nat → Nat → List Nat
  | 0, _, _ => []
  | n + 1, j, s => (4 * min s 12 + j % 4) :: spread_ranks n (j + 1) (s - min s 12)

/-- A small engine core: no tables, the running state is the list of cards seen
so far, and the index of a hand is the sum of the ranks (`card / 4`) of its
cards, so the indices of a round with `n` cards dealt lie below `12 * n + 1`. -/
def sample_core : EngineCore Unit (List Nat) where
  init := fun rounds cards_per_round =>
    (decide (rounds ≠ 0) && decide ((cards_per_round.take rounds).sum ≤ 52),
      { rounds := rounds, cards_per_round := cards_per_round.take rounds, tables := () })
  size := fun indexer round => 12 * cards_before indexer (round + 1) + 1
  state0 := []
  rank_round := fun _ _ cards seen => (((seen ++ cards).map (fun c => c / 4)).sum, seen ++ cards)
  unrank := fun indexer round index => spread_ranks (cards_before indexer (round + 1)) 0 index

/-- The sample engine. -/
def sample_engine : Engine Unit (hand_indexer_state_t (List Nat)) :=
  specEngine sample_core

/-- An indexer record for the schedule `[2, 3]`. -/
def sample_indexer : hand_indexer_t Unit :=
  { rounds := 2, cards_per_round := [2, 3], tables := () }

/-- The sample engine acting on memory. -/
def sample_mem_engine : MemEngine Unit (hand_indexer_state_t (List Nat)) :=
  sample_engine.toMem

/-- A memory holding the sample indexer and, in the storage of `state`, the
leftover of an earlier hand. -/
def sample_mem : Mem Unit (hand_indexer_state_t (List Nat)) :=
  { indexer := sample_indexer, state := { round := 2, data := [50, 51, 1, 2, 3] } }

/-! ## Card counts -/

theorem cards_before_zero (indexer : hand_indexer_t T) : cards_before indexer 0 = 0 := by
  simp [cards_before]

theorem cards_before_succ (indexer : hand_indexer_t T) (i : Nat) :
    cards_before indexer (i + 1)
      = cards_before indexer i + indexer.cards_per_round.getD i 0 := by
  unfold cards_before
  rw [List.take_succ, List.sum_append, List.getD_eq_getElem?_getD]
  cases indexer.cards_per_round[i]? <;> simp

theorem cards_before_mono (indexer : hand_indexer_t T) {i j : Nat} (h : i ≤ j) :
    cards_before indexer i ≤ cards_before indexer j := by
  induction j with
  | zero =>
    have : i = 0 := by omega
    subst this
    exact le_refl _
  | succ j ih =>
    rcases Nat.lt_or_ge i (j + 1) with hlt | hge
    · have := ih (by omega)
      rw [cards_before_succ]
      omega
    · have : i = j + 1 := by omega
      subst this
      exact le_refl _

/-! ## The loop of `rust_index_round` -/

/-- The loop makes no call when no iteration is left or the next round does
not fit. -/
theorem loop_stop (E : Engine T St) (indexer : hand_indexer_t T) (buf : List Nat) (ncards : Nat)
    (n round index : Nat) (state : St) (hfit : counts_fit_u32 indexer)
    (hn : round + n = indexer.rounds)
    (hstop : n = 0 ∨ ncards < cards_before indexer (round + 1)) :
    rust_index_round_loop E indexer buf ncards n round (cards_before indexer round)
      (cards_before indexer round) index state = (index, []) := by
  cases n with
  | zero => rfl
  | succ n =>
    rcases hstop with h | h
    · omega
    · have hle : cards_before indexer (round + 1) ≤ cards_before indexer indexer.rounds :=
        cards_before_mono indexer (by omega)
      have hlt : cards_before indexer (round + 1) < 2 ^ 32 := lt_of_le_of_lt hle hfit
      simp only [rust_index_round_loop]
      rw [← cards_before_succ, Nat.mod_eq_of_lt hlt]
      simp [h]

theorem loop_spec (E : Engine T St) (indexer : hand_indexer_t T) (buf : List Nat) (ncards : Nat)
    (hfit : counts_fit_u32 indexer) (k : Nat) (hk : k ≤ indexer.rounds)
    (hle : cards_before indexer k ≤ ncards)
    (hmax : k < indexer.rounds → ncards < cards_before indexer (k + 1)) :
    ∀ (n round : Nat), round + n = indexer.rounds → round ≤ k →
      rust_index_round_loop E indexer buf ncards n round (cards_before indexer round)
        (cards_before indexer round) (chain E indexer buf round).1 (chain E indexer buf round).2
      = ((chain E indexer buf k).1,
          (List.range' round (k - round)).map (fun i =>
            Call.hand_index_next_round (cards_before indexer i) (chain E indexer buf i).2)) := by
  intro n
  induction n with
  | zero =>
    intro round hn hr
    have : round = k := by omega
    subst this
    simp [rust_index_round_loop]
  | succ n ih =>
    intro round hn hr
    rcases Nat.lt_or_ge round k with hlt | hge
    · have hle1 : cards_before indexer (round + 1) ≤ ncards :=
        le_trans (cards_before_mono indexer (by omega)) hle
      have hle2 : cards_before indexer (round + 1) ≤ cards_before indexer indexer.rounds :=
        cards_before_mono indexer (by omega)
      have hlt2 : cards_before indexer (round + 1) < 2 ^ 32 := lt_of_le_of_lt hle2 hfit
      have hstep := ih (round + 1) (by omega) (by omega)
      simp only [rust_index_round_loop]
      rw [← cards_before_succ, Nat.mod_eq_of_lt hlt2]
      rw [if_neg (by omega)]
      have hc : E.hand_index_next_round indexer (List.drop (cards_before indexer round) buf)
          (chain E indexer buf round).2 = chain E indexer buf (round + 1) := rfl
      rw [hc, hstep]
      have hlen : k - round = (k - (round + 1)) + 1 := by omega
      rw [hlen, List.range'_succ]
      simp
    · have : round = k := by omega
      subst this
      rw [loop_stop E indexer buf ncards (n + 1) round _ _ hfit hn
        (Or.inr (hmax (by omega)))]
      simp

theorem rounds_fit_le (indexer : hand_indexer_t T) (ncards : Nat) :
    rounds_fit indexer ncards ≤ indexer.rounds :=
  Nat.findGreatest_le _

theorem rounds_fit_spec (indexer : hand_indexer_t T) (ncards : Nat) :
    cards_before indexer (rounds_fit indexer ncards) ≤ ncards := by
  have h := Nat.findGreatest_spec (P := fun k => cards_before indexer k ≤ ncards)
    (Nat.zero_le indexer.rounds) (by simp [cards_before_zero])
  exact h

theorem rounds_fit_max (indexer : hand_indexer_t T) (ncards : Nat)
    (h : rounds_fit indexer ncards < indexer.rounds) :
    ncards < cards_before indexer (rounds_fit indexer ncards + 1) := by
  have := Nat.findGreatest_is_greatest (P := fun k => cards_before indexer k ≤ ncards)
    (n := indexer.rounds) (k := rounds_fit indexer ncards + 1) (Nat.lt_succ_self _) h
  simpa using this

/-- If `k` rounds fit and the next one does not, `rounds_fit` is `k`. -/
theorem rounds_fit_eq (indexer : hand_indexer_t T) (ncards k : Nat) (hk : k ≤ indexer.rounds)
    (hle : cards_before indexer k ≤ ncards)
    (hmax : k < indexer.rounds → ncards < cards_before indexer (k + 1)) :
    rounds_fit indexer ncards = k := by
  apply le_antisymm
  · by_contra hlt
    have hlt : k < rounds_fit indexer ncards := by omega
    have h1 := rounds_fit_le indexer ncards
    have h2 := rounds_fit_spec indexer ncards
    have h3 := hmax (by omega)
    have h4 : cards_before indexer (k + 1) ≤ cards_before indexer (rounds_fit indexer ncards) :=
      cards_before_mono indexer (by omega)
    omega
  · exact Nat.le_findGreatest hk hle

/-- The traced run of `rust_index_round` in terms of `chain`. -/
theorem run_eq_chain (E : Engine T St) (indexer : hand_indexer_t T) (cards : List Nat)
    (ncards : Nat) (hfit : counts_fit_u32 indexer) :
    rust_index_round_run E indexer cards ncards
      = ((chain E indexer cards (rounds_fit indexer ncards)).1,
          Call.hand_indexer_state_init ::
            (List.range (rounds_fit indexer ncards)).map (fun i =>
              Call.hand_index_next_round (cards_before indexer i)
                (chain E indexer cards i).2)) := by
  have h := loop_spec E indexer cards ncards hfit (rounds_fit indexer ncards)
    (rounds_fit_le indexer ncards) (rounds_fit_spec indexer ncards)
    (rounds_fit_max indexer ncards) indexer.rounds 0 (by omega) (Nat.zero_le _)
  simp only [cards_before_zero, chain, Nat.sub_zero] at h
  simp only [rust_index_round_run, h, List.range_eq_range']

/-- With fewer cards than the first round needs, or without rounds, the run
stops before its first `hand_index_next_round` call. -/
theorem run_no_round (E : Engine T St) (indexer : hand_indexer_t T)
    (cards : List Nat) (ncards : Nat)
    (hword : indexer.cards_per_round.getD 0 0 < 2 ^ 32)
    (h : ncards < indexer.cards_per_round.getD 0 0 ∨ indexer.rounds = 0) :
    rust_index_round_run E indexer cards ncards = (0, [Call.hand_indexer_state_init]) := by
  unfold rust_index_round_run
  rcases h with h | h
  · cases hr : indexer.rounds with
    | zero => simp [rust_index_round_loop]
    | succ n =>
      have hmod : (0 + indexer.cards_per_round.getD 0 0) % 2 ^ 32
          = indexer.cards_per_round.getD 0 0 := by
        rw [Nat.zero_add]
        exact Nat.mod_eq_of_lt hword
      simp only [rust_index_round_loop, hmod, gt_iff_lt, if_pos h]
  · rw [h]
    simp [rust_index_round_loop]

/-- The first count is below `2 ^ 32` when the counts fit and there is a
round. -/
theorem first_count_lt (indexer : hand_indexer_t T) (hfit : counts_fit_u32 indexer)
    (hr : 0 < indexer.rounds) : indexer.cards_per_round.getD 0 0 < 2 ^ 32 := by
  have h1 : cards_before indexer 1 ≤ cards_before indexer indexer.rounds :=
    cards_before_mono indexer hr
  have h2 : cards_before indexer 1
      = cards_before indexer 0 + indexer.cards_per_round.getD 0 0 :=
    cards_before_succ indexer 0
  rw [cards_before_zero] at h2
  unfold counts_fit_u32 at hfit
  omega

/-! ## The modelled engine -/

theorem chain_round (core : EngineCore T S) (indexer : hand_indexer_t T) (buf : List Nat)
    (i : Nat) : (chain (specEngine core) indexer buf i).2.round = i := by
  induction i with
  | zero => rfl
  | succ i ih =>
    simp only [chain, specEngine, hand_index_next_round]
    exact congrArg (· + 1) ih

theorem take_window (l : List Nat) (p c t : Nat) (h : p + c ≤ t) :
    ((l.take t).drop p).take c = (l.drop p).take c := by
  rw [List.drop_take, List.take_take]
  congr 1
  omega

/-- The chain depends on the buffer only through the cards of the rounds it
has consumed. -/
theorem chain_agree (core : EngineCore T S) (indexer : hand_indexer_t T)
    (cards cards' : List Nat)
    (h : cards.take (cards_before indexer indexer.rounds)
      = cards'.take (cards_before indexer indexer.rounds)) :
    ∀ i, i ≤ indexer.rounds →
      chain (specEngine core) indexer cards i = chain (specEngine core) indexer cards' i := by
  intro i
  induction i with
  | zero => intro _; rfl
  | succ i ih =>
    intro hi
    have hprev := ih (by omega)
    have hwin : cards_before indexer i + indexer.cards_per_round.getD i 0
        ≤ cards_before indexer indexer.rounds := by
      rw [← cards_before_succ]
      exact cards_before_mono indexer hi
    have hr := chain_round core indexer cards i
    have hr' := chain_round core indexer cards' i
    have e1 := take_window cards _ _ _ hwin
    have e2 := take_window cards' _ _ _ hwin
    have hstep : ∀ buf : List Nat, chain (specEngine core) indexer buf (i + 1)
        = hand_index_next_round core indexer (buf.drop (cards_before indexer i))
            (chain (specEngine core) indexer buf i).2 := fun _ => rfl
    rw [hstep, hstep, ← hprev]
    simp only [hand_index_next_round, hr]
    rw [← e1, ← e2, h]

theorem all_loop_spec (core : EngineCore T S) (indexer : hand_indexer_t T) (cards : List Nat) :
    ∀ (n i : Nat),
      hand_index_all_loop core indexer cards n i (cards_before indexer i)
        (chain (specEngine core) indexer cards i).2
      = (List.range' i n).map (fun m => (chain (specEngine core) indexer cards (m + 1)).1) := by
  intro n
  induction n with
  | zero => intro i; rfl
  | succ n ih =>
    intro i
    have hc : hand_index_next_round core indexer (List.drop (cards_before indexer i) cards)
        (chain (specEngine core) indexer cards i).2
        = chain (specEngine core) indexer cards (i + 1) := rfl
    simp only [hand_index_all_loop]
    rw [← cards_before_succ, hc, ih (i + 1)]
    simp [List.range'_succ]

theorem hand_index_all_eq (core : EngineCore T S) (indexer : hand_indexer_t T)
    (cards indices : List Nat) :
    hand_index_all core indexer cards indices
      = (((List.range indexer.rounds).map
            (fun m => (chain (specEngine core) indexer cards (m + 1)).1)).getLastD 0,
          (List.range indexer.rounds).map
            (fun m => (chain (specEngine core) indexer cards (m + 1)).1)
          ++ indices.drop indexer.rounds) := by
  have h := all_loop_spec core indexer cards indexer.rounds 0
  rw [cards_before_zero] at h
  have h0 : (chain (specEngine core) indexer cards 0).2 = hand_indexer_state_init core indexer :=
    rfl
  rw [h0] at h
  simp only [hand_index_all, h, List.range_eq_range']

theorem schedule_counts_pos (indexer : hand_indexer_t T) (deck : Nat) (sched : List Nat)
    (hs : holds_schedule indexer sched) (hv : valid_schedule deck sched) (i : Nat)
    (hi : i < indexer.rounds) : 1 ≤ indexer.cards_per_round.getD i 0 := by
  obtain ⟨hlen, htake⟩ := hs
  obtain ⟨_, hpos, _⟩ := hv
  have hic : i < sched.length := by omega
  have h1 : sched[i]? = some sched[i] := List.getElem?_eq_getElem hic
  have h2 : (indexer.cards_per_round.take indexer.rounds)[i]? = indexer.cards_per_round[i]? :=
    List.getElem?_take_of_lt hi
  rw [htake, h1] at h2
  rw [List.getD_eq_getElem?_getD, ← h2]
  exact hpos _ (List.getElem_mem hic)

theorem schedule_counts_fit (indexer : hand_indexer_t T) (deck : Nat) (sched : List Nat)
    (hdeck : deck ≤ 256) (hs : holds_schedule indexer sched) (hv : valid_schedule deck sched) :
    counts_fit_u32 indexer := by
  obtain ⟨_, htake⟩ := hs
  obtain ⟨_, _, hsum⟩ := hv
  unfold counts_fit_u32 cards_before
  rw [htake]
  omega

/-! ## Claims settled on the wrapper alone -/

/-- C10: `rust_index_round` indexes exactly the complete rounds that fit.  With
`k = rounds_fit indexer ncards`, the largest `k ≤ rounds` such that the first
`k` rounds need at most `ncards` cards, the function initialises the state
once, then calls `hand_index_next_round` exactly `k` times, the `i`-th call
with the card pointer at offset `cards_before indexer i` and the state left by
the call before, and returns the value of the last call (`0` when `k = 0`).
Hence any `m` from a round boundary up to (not including) the next boundary
gives the result of the lower boundary. -/
theorem rust_index_round_complete_rounds (E : Engine T St) (indexer : hand_indexer_t T)
    (cards : List Nat) (ncards : Nat) (hfit : counts_fit_u32 indexer) :
    (rounds_fit indexer ncards ≤ indexer.rounds
      ∧ cards_before indexer (rounds_fit indexer ncards) ≤ ncards
      ∧ ∀ j, j ≤ indexer.rounds → cards_before indexer j ≤ ncards →
          j ≤ rounds_fit indexer ncards)
    ∧ rust_index_round_run E indexer cards ncards
      = ((chain E indexer cards (rounds_fit indexer ncards)).1,
          Call.hand_indexer_state_init ::
            (List.range (rounds_fit indexer ncards)).map (fun i =>
              Call.hand_index_next_round (cards_before indexer i)
                (chain E indexer cards i).2))
    ∧ ∀ j m, j < indexer.rounds → cards_before indexer j ≤ m →
        m < cards_before indexer (j + 1) →
        rust_index_round E indexer cards m
          = rust_index_round E indexer cards (cards_before indexer j) := by
  refine ⟨⟨rounds_fit_le indexer ncards, rounds_fit_spec indexer ncards, ?_⟩,
    run_eq_chain E indexer cards ncards hfit, ?_⟩
  · intro j hj hle
    exact Nat.le_findGreatest hj hle
  · intro j m hj hlo hhi
    have h1 : rounds_fit indexer m = j :=
      rounds_fit_eq indexer m j (le_of_lt hj) hlo (fun _ => hhi)
    have h2 : rounds_fit indexer (cards_before indexer j) = j := by
      refine rounds_fit_eq indexer _ j (le_of_lt hj) (le_refl _) (fun _ => ?_)
      exact lt_of_le_of_lt hlo hhi
    simp only [rust_index_round, run_eq_chain E indexer cards _ hfit, h1, h2]

/-- C10 at the schedule `[2, 3]` with three cards available: one round is
indexed, from offset `0`, with the fresh state. -/
theorem rust_index_round_complete_rounds_witness :
    counts_fit_u32 sample_indexer
    ∧ rust_index_round_run sample_engine sample_indexer [5, 9, 2, 3, 4] 3
      = (3, [Call.hand_indexer_state_init,
              Call.hand_index_next_round 0 { round := 0, data := [] }]) :=
  ⟨by decide,
    (rust_index_round_complete_rounds sample_engine sample_indexer [5, 9, 2, 3, 4] 3
      (by decide)).2.1.trans (by decide)⟩

/-- C3: when `ncards` is smaller than `cards_per_round[0]`, or the indexer has
no round, `rust_index_round` returns `0` and its only engine call is the
initialisation of the state: `hand_index_next_round` is never called, so no
round is indexed and no card is read. -/
theorem rust_index_round_too_few_cards (E : Engine T St) (indexer : hand_indexer_t T)
    (cards : List Nat) (ncards : Nat)
    (hbyte : indexer.cards_per_round.getD 0 0 < 256)
    (h : ncards < indexer.cards_per_round.getD 0 0 ∨ indexer.rounds = 0) :
    rust_index_round_run E indexer cards ncards = (0, [Call.hand_indexer_state_init]) :=
  run_no_round E indexer cards ncards (by omega) h

/-- C3 at the schedule `[2, 3]` with one card available. -/
theorem rust_index_round_too_few_cards_witness :
    rust_index_round_run sample_engine sample_indexer [7] 1
      = (0, [Call.hand_indexer_state_init]) :=
  rust_index_round_too_few_cards sample_engine sample_indexer [7] 1 (by decide)
    (Or.inl (by decide))

/-- C6: for `round ≥ indexer.rounds` the function `rust_indexer_size` returns
`0` without any engine call; for `round < indexer.rounds` it makes the one call
`hand_indexer_size(indexer, round)` and returns its value unchanged. -/
theorem rust_indexer_size_range (E : Engine T St) (indexer : hand_indexer_t T) (round : Nat) :
    (indexer.rounds ≤ round → rust_indexer_size_run E indexer round = (0, []))
    ∧ (round < indexer.rounds →
        rust_indexer_size_run E indexer round
          = (E.hand_indexer_size indexer round, [Call.hand_indexer_size round])) := by
  constructor
  · intro h
    simp [rust_indexer_size_run, h]
  · intro h
    simp [rust_indexer_size_run, Nat.not_le.mpr h]

/-- C6 at the schedule `[2, 3]`: round `2` is out of range, round `1` is not. -/
theorem rust_indexer_size_range_witness :
    rust_indexer_size_run sample_engine sample_indexer 2 = (0, [])
    ∧ rust_indexer_size_run sample_engine sample_indexer 1
        = (61, [Call.hand_indexer_size 1]) :=
  ⟨(rust_indexer_size_range sample_engine sample_indexer 2).1 (by decide),
    ((rust_indexer_size_range sample_engine sample_indexer 1).2 (by decide)).trans
      (by decide)⟩

/-- C7: `rust_init_indexer` sets the success flag to `true` exactly when it
returns a non-`NULL` indexer; a returned indexer is the record that
`hand_indexer_init` filled and reported as built; and whenever
`hand_indexer_init` reports failure the function returns `NULL` with the flag
`false`. -/
theorem rust_init_indexer_all_or_nothing (E : Engine T St) (malloc_ok : Bool) (rounds : Nat)
    (cards_per_round : List Nat) :
    ((rust_init_indexer E malloc_ok rounds cards_per_round).2 = true
        ↔ (rust_init_indexer E malloc_ok rounds cards_per_round).1 ≠ none)
    ∧ (∀ indexer, (rust_init_indexer E malloc_ok rounds cards_per_round).1 = some indexer →
        E.hand_indexer_init rounds cards_per_round = (true, indexer))
    ∧ ((E.hand_indexer_init rounds cards_per_round).1 = false →
        rust_init_indexer E malloc_ok rounds cards_per_round = (none, false)) := by
  unfold rust_init_indexer
  cases malloc_ok <;> cases h : E.hand_indexer_init rounds cards_per_round with
  | mk ok indexer => cases ok <;> simp

/-- C7 at the empty schedule, which the sample engine refuses. -/
theorem rust_init_indexer_all_or_nothing_witness :
    rust_init_indexer sample_engine true 0 [] = (none, false) :=
  (rust_init_indexer_all_or_nothing sample_engine true 0 []).2.2 (by decide)

/-! ## The wrapper on memory -/

/-- With a read-only engine and enough fuel the loop ends and hands back the
record it was given. -/
theorem loop_mem_frame (M : MemEngine T St) (hro : reads_only M) (buf : List Nat)
    (ncards : Nat) :
    ∀ (fuel : Nat) (indexer : hand_indexer_t T) (round cards_used cards index : Nat)
      (state : St), indexer.rounds - round < fuel →
      ∃ v st, rust_index_round_loop_mem M buf ncards fuel indexer round cards_used cards
        index state = some (v, st, indexer) := by
  intro fuel
  induction fuel with
  | zero =>
    intro _ _ _ _ _ _ h
    omega
  | succ fuel ih =>
    intro indexer round cards_used cards index state h
    have hnext := hro.2.2.2.2 indexer (buf.drop cards) state
    by_cases hr : round < indexer.rounds
    · by_cases hc : (cards_used + indexer.cards_per_round.getD round 0) % 2 ^ 32 > ncards
      · simp only [rust_index_round_loop_mem, if_pos hr, if_pos hc]
        exact ⟨_, _, rfl⟩
      · simp only [rust_index_round_loop_mem, if_pos hr, if_neg hc, hnext]
        exact ih _ _ _ _ _ _ (by omega)
    · simp only [rust_index_round_loop_mem, if_neg hr]
      exact ⟨_, _, rfl⟩

theorem index_round_mem_frame (M : MemEngine T St) (hro : reads_only M) (fuel : Nat)
    (mem : Mem T St) (cards : List Nat) (ncards : Nat) (hfuel : mem.indexer.rounds < fuel) :
    ∃ v st, rust_index_round_mem M fuel mem cards ncards
      = some (v, { indexer := mem.indexer, state := st }) := by
  have hi := hro.2.2.2.1 mem.indexer mem.state
  obtain ⟨v, st, h⟩ := loop_mem_frame M hro cards ncards fuel mem.indexer 0 0 0 0
    (M.hand_indexer_state_init mem.indexer mem.state).1 (by omega)
  refine ⟨v, st, ?_⟩
  simp only [rust_index_round_mem, hi, h, Option.map_some']

/-- The call depends on the memory only through the indexer record: what the
storage of `state` held before is overwritten first. -/
theorem index_round_mem_congr (M : MemEngine T St) (hro : reads_only M)
    (hfresh : fresh_state_init M) (fuel : Nat) (mem mem' : Mem T St)
    (h : mem'.indexer = mem.indexer) (cards : List Nat) (ncards : Nat) :
    rust_index_round_mem M fuel mem' cards ncards
      = rust_index_round_mem M fuel mem cards ncards := by
  have hinit : M.hand_indexer_state_init mem'.indexer mem'.state
      = M.hand_indexer_state_init mem.indexer mem.state := by
    apply Prod.ext
    · rw [h]
      exact hfresh _ _ _
    · rw [hro.2.2.2.1, hro.2.2.2.1, h]
  simp only [rust_index_round_mem, hinit]

theorem indexer_size_mem_frame (M : MemEngine T St) (hro : reads_only M) (mem : Mem T St)
    (round : Nat) : (rust_indexer_size_mem M mem round).2.indexer = mem.indexer := by
  unfold rust_indexer_size_mem
  split
  · rfl
  · exact hro.1 _ _

theorem exec_frame (M : MemEngine T St) (hro : reads_only M) (fuel : Nat) (mem : Mem T St)
    (hfuel : mem.indexer.rounds < fuel) (op : Op) :
    ∃ mem', op.exec M fuel mem = some mem' ∧ mem'.indexer = mem.indexer := by
  cases op with
  | indexer_size round => exact ⟨_, rfl, indexer_size_mem_frame M hro mem round⟩
  | index_all cards indices => exact ⟨_, rfl, hro.2.1 _ _ _⟩
  | unindex round index cards => exact ⟨_, rfl, hro.2.2.1 _ _ _ _⟩
  | index_round cards ncards =>
    obtain ⟨v, st, h⟩ := index_round_mem_frame M hro fuel mem cards ncards hfuel
    exact ⟨{ indexer := mem.indexer, state := st }, by simp only [Op.exec, h, Option.map_some'],
      rfl⟩

theorem run_ops_frame (M : MemEngine T St) (hro : reads_only M) (fuel : Nat) (ops : List Op) :
    ∀ mem : Mem T St, mem.indexer.rounds < fuel →
      ∃ mem', run_ops M fuel mem ops = some mem' ∧ mem'.indexer = mem.indexer := by
  induction ops with
  | nil =>
    intro mem _
    exact ⟨mem, rfl, rfl⟩
  | cons op ops ih =>
    intro mem hfuel
    obtain ⟨mem1, h1, hix1⟩ := exec_frame M hro fuel mem hfuel op
    obtain ⟨mem2, h2, hix2⟩ := ih mem1 (by rw [hix1]; exact hfuel)
    refine ⟨mem2, ?_, by rw [hix2, hix1]⟩
    simp only [run_ops, h1, Option.some_bind, h2]

theorem toMem_reads_only (E : Engine T St) : reads_only E.toMem :=
  ⟨fun _ _ => rfl, fun _ _ _ => rfl, fun _ _ _ _ => rfl, fun _ _ => rfl, fun _ _ _ => rfl⟩

theorem toMem_fresh_state_init (E : Engine T St) : fresh_state_init E.toMem :=
  fun _ _ _ => rfl

/-- Over a read-only engine the loop on memory computes the index of
`rust_index_round_loop`. -/
theorem loop_mem_pure (E : Engine T St) (indexer : hand_indexer_t T) (buf : List Nat)
    (ncards : Nat) :
    ∀ (n fuel round cards_used cards index : Nat) (state : St),
      round + n = indexer.rounds → n < fuel →
      (rust_index_round_loop_mem E.toMem buf ncards fuel indexer round cards_used cards
        index state).map (fun r => r.1)
      = some (rust_index_round_loop E indexer buf ncards n round cards_used cards
          index state).1 := by
  intro n
  induction n with
  | zero =>
    intro fuel round cards_used cards index state hn hfuel
    obtain ⟨f, rfl⟩ : ∃ f, fuel = f + 1 := ⟨fuel - 1, by omega⟩
    have hr : ¬ round < indexer.rounds := by omega
    simp only [rust_index_round_loop_mem, if_neg hr, rust_index_round_loop, Option.map_some']
  | succ n ih =>
    intro fuel round cards_used cards index state hn hfuel
    obtain ⟨f, rfl⟩ : ∃ f, fuel = f + 1 := ⟨fuel - 1, by omega⟩
    have hr : round < indexer.rounds := by omega
    by_cases hc : (cards_used + indexer.cards_per_round.getD round 0) % 2 ^ 32 > ncards
    · simp only [rust_index_round_loop_mem, if_pos hr, if_pos hc, rust_index_round_loop,
        Option.map_some']
    · simp only [rust_index_round_loop_mem, if_pos hr, if_neg hc, rust_index_round_loop]
      exact ih f (round + 1) _ _ _ _ (by omega) (by omega)

/-- Over a read-only engine `rust_index_round` on memory returns the value of
`rust_index_round`. -/
theorem index_round_mem_pure (E : Engine T St) (fuel : Nat) (mem : Mem T St)
    (cards : List Nat) (ncards : Nat) (hfuel : mem.indexer.rounds < fuel) :
    (rust_index_round_mem E.toMem fuel mem cards ncards).map (fun r => r.1)
      = some (rust_index_round E mem.indexer cards ncards) := by
  have h := loop_mem_pure E mem.indexer cards ncards mem.indexer.rounds fuel 0 0 0 0
    (E.hand_indexer_state_init mem.indexer) (by omega) hfuel
  simp only [rust_index_round_mem, rust_index_round, rust_index_round_run, Option.map_map]
  exact h

/-- An engine that writes to the record is seen to do so: on memory, the
wrapper calls do not keep the indexer by construction. -/
theorem counting_engine_writes :
    (rust_indexer_size_mem counting_engine { indexer := sample_indexer, state := () } 0).2.indexer
      = { rounds := 3, cards_per_round := [2, 3], tables := () }
    ∧ rust_index_round_mem counting_engine 3 { indexer := sample_indexer, state := () }
        [5, 9] 2
      = some (0, { indexer := { rounds := 3, cards_per_round := [2, 3], tables := () },
                   state := () }) := by
  decide

/-- C9: the per-call wrapper functions leave the indexer as it was and carry
no state between calls.  With an engine that does not write to the indexer:
`rust_indexer_size` (also when the round is out of range) and
`rust_index_round` (also when no round is processed) return with every field of
the indexer record unchanged; so does any sequence of wrapper calls;
`rust_index_round` overwrites its state before use, so its result depends on
the memory only through the indexer record, and a call made after any sequence
of other calls returns what the same call returned before them.  In the call
log, the first engine call of every `rust_index_round` run is
`hand_indexer_state_init`, and the first `hand_index_next_round` call receives
that fresh state at offset `0`. -/
theorem wrapper_calls_keep_indexer (M : MemEngine T St) (hro : reads_only M)
    (hfresh : fresh_state_init M) (mem : Mem T St) (ops : List Op) (fuel : Nat)
    (hfuel : mem.indexer.rounds < fuel) :
    (∀ round, (rust_indexer_size_mem M mem round).2.indexer = mem.indexer)
    ∧ (∀ cards ncards, ∃ v mem1,
        rust_index_round_mem M fuel mem cards ncards = some (v, mem1)
        ∧ mem1.indexer = mem.indexer)
    ∧ (∀ mem' : Mem T St, mem'.indexer = mem.indexer → ∀ cards ncards,
        rust_index_round_mem M fuel mem' cards ncards
          = rust_index_round_mem M fuel mem cards ncards)
    ∧ (∃ mem', run_ops M fuel mem ops = some mem'
        ∧ mem'.indexer = mem.indexer
        ∧ (∀ round, (rust_indexer_size_mem M mem' round).1
            = (rust_indexer_size_mem M mem round).1)
        ∧ ∀ cards ncards, ∃ v mem1 mem2,
            rust_index_round_mem M fuel mem cards ncards = some (v, mem1)
            ∧ rust_index_round_mem M fuel mem' cards ncards = some (v, mem2))
    ∧ (∀ (E : Engine T St) cards ncards,
        (rust_index_round_run E mem.indexer cards ncards).2[0]?
          = some Call.hand_indexer_state_init
        ∧ ∀ offset state,
            (rust_index_round_run E mem.indexer cards ncards).2[1]?
              = some (Call.hand_index_next_round offset state) →
            offset = 0 ∧ state = E.hand_indexer_state_init mem.indexer) := by
  refine ⟨indexer_size_mem_frame M hro mem, ?_, ?_, ?_, ?_⟩
  · intro cards ncards
    obtain ⟨v, st, h⟩ := index_round_mem_frame M hro fuel mem cards ncards hfuel
    exact ⟨v, _, h, rfl⟩
  · intro mem' h cards ncards
    exact index_round_mem_congr M hro hfresh fuel mem mem' h cards ncards
  · obtain ⟨mem', hrun, hix⟩ := run_ops_frame M hro fuel ops mem hfuel
    refine ⟨mem', hrun, hix, ?_, ?_⟩
    · intro round
      simp only [rust_indexer_size_mem, hix]
      split <;> rfl
    · intro cards ncards
      obtain ⟨v, st, h⟩ := index_round_mem_frame M hro fuel mem cards ncards hfuel
      refine ⟨v, { indexer := mem.indexer, state := st },
        { indexer := mem.indexer, state := st }, h, ?_⟩
      rw [index_round_mem_congr M hro hfresh fuel mem mem' hix cards ncards]
      exact h
  · intro E cards ncards
    refine ⟨by simp [rust_index_round_run], ?_⟩
    intro offset state
    unfold rust_index_round_run
    cases mem.indexer.rounds with
    | zero => simp [rust_index_round_loop]
    | succ n =>
      simp only [rust_index_round_loop]
      split
      · simp
      · simp only [List.getElem?_cons_succ, List.getElem?_cons_zero, Option.some.injEq,
          Call.hand_index_next_round.injEq]
        rintro ⟨h1, h2⟩
        exact ⟨h1.symm, h2.symm⟩

/-- C9 on the sample memory: after an `rust_index_round` call that processes
no round, one that indexes both rounds and an out-of-range size query, the
indexer is the sample indexer. -/
theorem wrapper_calls_keep_indexer_witness :
    (reads_only sample_mem_engine ∧ fresh_state_init sample_mem_engine
      ∧ sample_mem.indexer.rounds < 3)
    ∧ ∃ mem', run_ops sample_mem_engine 3 sample_mem
          [Op.index_round [7] 1, Op.index_round [5, 9, 2, 3, 4] 5, Op.indexer_size 2]
        = some mem'
      ∧ mem'.indexer = sample_mem.indexer :=
  ⟨⟨toMem_reads_only sample_engine, toMem_fresh_state_init sample_engine, by decide⟩,
    let ⟨mem', h1, h2, _⟩ :=
      (wrapper_calls_keep_indexer sample_mem_engine (toMem_reads_only sample_engine)
        (toMem_fresh_state_init sample_engine) sample_mem
        [Op.index_round [7] 1, Op.index_round [5, 9, 2, 3, 4] 5, Op.indexer_size 2] 3
        (by decide)).2.2.2.1
    ⟨mem', h1, h2⟩⟩

/-! ## Claims settled against the modelled engine -/

/-- C1: incremental equivalence.  For an indexer holding a valid schedule, any
card buffer and any round `k < rounds`, `rust_index_round` with `ncards` equal
to the number of cards through round `k` returns the value `rust_index_all`
stores in `indices[k]`; with `ncards` equal to the full total it returns the
value `rust_index_all` returns. -/
theorem rust_index_round_matches_index_all (core : EngineCore T S) (deck : Nat)
    (hdeck : deck ≤ 256) (indexer : hand_indexer_t T) (sched : List Nat)
    (hs : holds_schedule indexer sched) (hv : valid_schedule deck sched)
    (cards indices : List Nat) :
    (∀ k, k < indexer.rounds →
      (rust_index_all (specEngine core) indexer cards indices).2[k]?
        = some (rust_index_round (specEngine core) indexer cards
            (cards_before indexer (k + 1))))
    ∧ rust_index_round (specEngine core) indexer cards (cards_before indexer indexer.rounds)
        = (rust_index_all (specEngine core) indexer cards indices).1 := by
  have hfit := schedule_counts_fit indexer deck sched hdeck hs hv
  have hall : rust_index_all (specEngine core) indexer cards indices
      = hand_index_all core indexer cards indices := rfl
  rw [hall, hand_index_all_eq]
  constructor
  · intro k hk
    have hfitk : rounds_fit indexer (cards_before indexer (k + 1)) = k + 1 := by
      refine rounds_fit_eq indexer _ (k + 1) hk (le_refl _) (fun hlt => ?_)
      have hpos := schedule_counts_pos indexer deck sched hs hv (k + 1) hlt
      rw [cards_before_succ indexer (k + 1)]
      omega
    simp only [rust_index_round, run_eq_chain (specEngine core) indexer cards _ hfit, hfitk]
    rw [List.getElem?_append_left (by simpa using hk), List.getElem?_map,
      List.getElem?_range hk]
    rfl
  · have hfitr : rounds_fit indexer (cards_before indexer indexer.rounds) = indexer.rounds :=
      rounds_fit_eq indexer _ indexer.rounds (le_refl _) (le_refl _)
        (fun hlt => absurd hlt (lt_irrefl _))
    simp only [rust_index_round, run_eq_chain (specEngine core) indexer cards _ hfit, hfitr]
    have hne : indexer.rounds ≠ 0 := by
      obtain ⟨hlen, _⟩ := hs
      obtain ⟨hnil, _, _⟩ := hv
      rw [hlen]
      exact fun h0 => hnil (List.length_eq_zero.mp h0)
    obtain ⟨n, hn⟩ := Nat.exists_eq_succ_of_ne_zero hne
    rw [hn, List.range_succ, List.map_append, List.map_singleton, List.getLastD_concat]

/-- C1 at the schedule `[2, 3]` and the hand `5, 9 | 2, 3, 4`. -/
theorem rust_index_round_matches_index_all_witness :
    (52 ≤ 256 ∧ holds_schedule sample_indexer [2, 3] ∧ valid_schedule 52 [2, 3])
    ∧ (rust_index_all sample_engine sample_indexer [5, 9, 2, 3, 4] [0, 0]).2 = [3, 4]
    ∧ rust_index_round sample_engine sample_indexer [5, 9, 2, 3, 4] 2 = 3
    ∧ rust_index_round sample_engine sample_indexer [5, 9, 2, 3, 4] 5
        = (rust_index_all sample_engine sample_indexer [5, 9, 2, 3, 4] [0, 0]).1 :=
  ⟨by decide, by decide, by decide,
    (rust_index_round_matches_index_all sample_core 52 (by decide) sample_indexer [2, 3]
      (by decide) (by decide) [5, 9, 2, 3, 4] [0, 0]).2⟩

/-- C5: extra cards are not used.  With `total` the number of cards of all
configured rounds, for every `ncards ≥ total` and every buffer `cards'` that
agrees with `cards` on the first `total` entries, `rust_index_round` on
`cards'` with `ncards` returns what it returns on `cards` with `total`. -/
theorem rust_index_round_ignores_extra_cards (core : EngineCore T S)
    (indexer : hand_indexer_t T) (cards cards' : List Nat) (ncards : Nat)
    (hfit : counts_fit_u32 indexer)
    (hn : cards_before indexer indexer.rounds ≤ ncards)
    (hagree : cards.take (cards_before indexer indexer.rounds)
      = cards'.take (cards_before indexer indexer.rounds)) :
    rust_index_round (specEngine core) indexer cards' ncards
      = rust_index_round (specEngine core) indexer cards
          (cards_before indexer indexer.rounds) := by
  have h1 : rounds_fit indexer ncards = indexer.rounds :=
    rounds_fit_eq indexer _ indexer.rounds (le_refl _) hn
      (fun hlt => absurd hlt (lt_irrefl _))
  have h2 : rounds_fit indexer (cards_before indexer indexer.rounds) = indexer.rounds :=
    rounds_fit_eq indexer _ indexer.rounds (le_refl _) (le_refl _)
      (fun hlt => absurd hlt (lt_irrefl _))
  simp only [rust_index_round, run_eq_chain (specEngine core) indexer _ _ hfit, h1, h2]
  rw [chain_agree core indexer cards cards' hagree indexer.rounds (le_refl _)]

/-- C5 at the schedule `[2, 3]`: two trailing cards and `ncards = 7` change
nothing. -/
theorem rust_index_round_ignores_extra_cards_witness :
    (counts_fit_u32 sample_indexer ∧ cards_before sample_indexer sample_indexer.rounds ≤ 7)
    ∧ rust_index_round sample_engine sample_indexer [5, 9, 2, 3, 4, 50, 51] 7
      = rust_index_round sample_engine sample_indexer [5, 9, 2, 3, 4] 5 :=
  ⟨by decide,
    rust_index_round_ignores_extra_cards sample_core sample_indexer [5, 9, 2, 3, 4]
      [5, 9, 2, 3, 4, 50, 51] 7 (by decide) (by decide) (by decide)⟩

/-- C8: `rust_unindex` hands back exactly what `hand_unindex` returns, for any
engine; and with the bounds check of `hand_unindex`, every pair with
`round ≥ indexer.rounds` or `index ≥` the size of the round gives `false` and
leaves the card buffer as it was. -/
theorem rust_unindex_out_of_range (E : Engine T St) (core : EngineCore T S)
    (indexer : hand_indexer_t T) (round index : Nat) (cards : List Nat) :
    rust_unindex E indexer round index cards = E.hand_unindex indexer round index cards
    ∧ (indexer.rounds ≤ round ∨ (specEngine core).hand_indexer_size indexer round ≤ index →
        rust_unindex (specEngine core) indexer round index cards = (false, cards)) := by
  refine ⟨rfl, ?_⟩
  intro h
  have h' : round ≥ indexer.rounds ∨ index ≥ core.size indexer round := h
  simp only [rust_unindex, specEngine, hand_unindex, if_pos h']

/-- C8 at the schedule `[2, 3]`: round `2` does not exist, and round `0` has
no index `25`. -/
theorem rust_unindex_out_of_range_witness :
    rust_unindex sample_engine sample_indexer 2 0 [7, 7] = (false, [7, 7])
    ∧ rust_unindex sample_engine sample_indexer 0 25 [7, 7] = (false, [7, 7]) :=
  ⟨(rust_unindex_out_of_range sample_engine sample_core sample_indexer 2 0 [7, 7]).2
      (Or.inl (by decide)),
    (rust_unindex_out_of_range sample_engine sample_core sample_indexer 0 25 [7, 7]).2
      (Or.inr (by decide))⟩

/-- C4, as stated, fails: at the schedule `[2, 3]` the hand `0, 1` with two
cards available has index `0`, the value also returned when only one card is
available and no round is processed. -/
theorem no_round_result_not_distinct :
    sample_indexer.cards_per_round.getD 0 0 ≤ 2
    ∧ 1 < sample_indexer.cards_per_round.getD 0 0
    ∧ (rust_index_round_run sample_engine sample_indexer [0, 1] 2).2.length = 2
    ∧ (rust_index_round_run sample_engine sample_indexer [0] 1).2.length = 1
    ∧ rust_index_round sample_engine sample_indexer [0, 1] 2
      = rust_index_round sample_engine sample_indexer [0] 1 := by
  decide

/-- C4 as amended: with fewer cards than the first round needs
`rust_index_round` returns `0`; with at least that many it returns, unchanged,
the value of its last `hand_index_next_round` call; so the two results coincide
exactly when that call returned index `0`. -/
theorem rust_index_round_zero_is_ambiguous (E : Engine T St) (indexer : hand_indexer_t T)
    (cards : List Nat) (ncards : Nat) (hfit : counts_fit_u32 indexer)
    (hr : 0 < indexer.rounds) (hn : indexer.cards_per_round.getD 0 0 ≤ ncards) :
    (∀ cards' m, m < indexer.cards_per_round.getD 0 0 →
        rust_index_round E indexer cards' m = 0)
    ∧ 1 ≤ rounds_fit indexer ncards
    ∧ rust_index_round E indexer cards ncards
        = (E.hand_index_next_round indexer
            (cards.drop (cards_before indexer (rounds_fit indexer ncards - 1)))
            (chain E indexer cards (rounds_fit indexer ncards - 1)).2).1
    ∧ (∀ cards' m, m < indexer.cards_per_round.getD 0 0 →
        (rust_index_round E indexer cards ncards = rust_index_round E indexer cards' m
          ↔ (E.hand_index_next_round indexer
              (cards.drop (cards_before indexer (rounds_fit indexer ncards - 1)))
              (chain E indexer cards (rounds_fit indexer ncards - 1)).2).1 = 0)) := by
  have hzero : ∀ cards' m, m < indexer.cards_per_round.getD 0 0 →
      rust_index_round E indexer cards' m = 0 := by
    intro cards' m hm
    unfold rust_index_round
    rw [run_no_round E indexer cards' m (first_count_lt indexer hfit hr) (Or.inl hm)]
  have hone : 1 ≤ rounds_fit indexer ncards := by
    refine Nat.le_findGreatest hr ?_
    have h1 : cards_before indexer 1
        = cards_before indexer 0 + indexer.cards_per_round.getD 0 0 :=
      cards_before_succ indexer 0
    rw [cards_before_zero] at h1
    show cards_before indexer 1 ≤ ncards
    omega
  obtain ⟨k, hk⟩ : ∃ k, rounds_fit indexer ncards = k + 1 := ⟨rounds_fit indexer ncards - 1, by omega⟩
  have hval : rust_index_round E indexer cards ncards
      = (E.hand_index_next_round indexer
          (cards.drop (cards_before indexer (rounds_fit indexer ncards - 1)))
          (chain E indexer cards (rounds_fit indexer ncards - 1)).2).1 := by
    simp only [rust_index_round, run_eq_chain E indexer cards ncards hfit, hk,
      Nat.add_sub_cancel, chain]
  refine ⟨hzero, hone, hval, ?_⟩
  intro cards' m hm
  rw [hzero cards' m hm, hval]

/-- C4 as amended, at the schedule `[2, 3]` with two cards available. -/
theorem rust_index_round_zero_is_ambiguous_witness :
    (counts_fit_u32 sample_indexer ∧ 0 < sample_indexer.rounds
      ∧ sample_indexer.cards_per_round.getD 0 0 ≤ 2)
    ∧ 1 ≤ rounds_fit sample_indexer 2 :=
  ⟨by decide,
    (rust_index_round_zero_is_ambiguous sample_engine sample_indexer [0, 1] 2 (by decide)
      (by decide) (by decide)).2.1⟩

end HandIndexer
